import Mathlib

set_option maxRecDepth 40000

/-!
Verification of the mask-validation logic of `lionz/resources.py`.

The central function is `has_label_above_threshold`: it reads a 3-D labeled
mask, zeroes a border margin (via numpy slice assignments), removes small
connected components (via `scipy.ndimage.label` / `nd_sum` and a masking
loop), counts the remaining positive voxels, and persists either the cleaned
array or an all-zero array back to the same path, returning a boolean.

The embedding below models a numpy 3-D integer array as a `Volume`
(dimensions plus a valuation function; only in-bounds indices are
meaningful), a SimpleITK image as a `Volume` paired with opaque spatial
metadata, and the file write performed by `sitk.WriteImage` as an element of
an explicit write trace.  `scipy.ndimage.label` is an external collaborator;
it is modelled by its documented semantics: it partitions the positive
voxels into 6-connected components and assigns the labels `1 .. n`, with `0`
for background.  The labeling here picks a canonical representative per
component (the largest scan index) and numbers components by first
occurrence in scan order; the masking loop of the source is embedded
literally as a fold over `range (num_features + 1)`.
-/

/-- A coordinate of a 3-D array: `(i, j, k)` indexing axes 0, 1, 2. -/
abbrev Coord : Type := Nat × Nat × Nat

/-- A 3-D integer array (the result of `sitk.GetArrayFromImage`): three
dimensions and a valuation.  Only indices `i < n1, j < n2, k < n3` are
meaningful; out-of-range values are junk carried by the total function. -/
structure Volume where
  n1 : Nat
  n2 : Nat
  n3 : Nat
  val : Nat → Nat → Nat → Int

/-- All in-bounds coordinates of a `n1 × n2 × n3` array, as a finite set. -/
def allCoordsF (n1 n2 n3 : Nat) : Finset Coord :=
  Finset.range n1 ×ˢ Finset.range n2 ×ˢ Finset.range n3

/-- All in-bounds coordinates as a list in scan order (axis 0 outermost). -/
def allCoordsL (n1 n2 n3 : Nat) : List Coord :=
  (List.range n1).flatMap fun i =>
    (List.range n2).flatMap fun j =>
      (List.range n3).map fun k => (i, j, k)

/-- The foreground of a volume: the set of in-bounds coordinates with a
strictly positive value (`mask_array > 0` in the source). -/
def fgSet (v : Volume) : Finset Coord :=
  (allCoordsF v.n1 v.n2 v.n3).filter fun p => 0 < v.val p.1 p.2.1 p.2.2

/-- Adjacency: 6-connectivity (the default structuring element of
`scipy.ndimage.label` in 3-D): two coordinates are adjacent when they differ
by exactly one along exactly one axis. -/
def adjb (p q : Coord) : Bool :=
  (decide (p.1 = q.1) && decide (p.2.1 = q.2.1) &&
    (decide (p.2.2 + 1 = q.2.2) || decide (q.2.2 + 1 = p.2.2))) ||
  (decide (p.1 = q.1) && decide (p.2.2 = q.2.2) &&
    (decide (p.2.1 + 1 = q.2.1) || decide (q.2.1 + 1 = p.2.1))) ||
  (decide (p.2.1 = q.2.1) && decide (p.2.2 = q.2.2) &&
    (decide (p.1 + 1 = q.1) || decide (q.1 + 1 = p.1)))

/-- One step between foreground voxels of the component graph. -/
def StepIn (F : Finset Coord) (p q : Coord) : Prop :=
  p ∈ F ∧ q ∈ F ∧ adjb p q = true

/-- Connectivity: the reflexive-transitive closure of single adjacency
steps inside `F`. -/
def ReachIn (F : Finset Coord) (p q : Coord) : Prop :=
  Relation.ReflTransGen (StepIn F) p q

/-- One closure step of the component computation: all members of `F` that
are in `s` or adjacent to a member of `s`. -/
def nbrsIn (F : Finset Coord) (s : Finset Coord) : Finset Coord :=
  F.filter fun q => q ∈ s ∨ ∃ p ∈ s, adjb p q = true

/-- Iterated closure steps. -/
def reachAuxIn (F : Finset Coord) : Nat → Finset Coord → Finset Coord
  | 0, s => s
  | n + 1, s => reachAuxIn F n (nbrsIn F s)

/-- The connected component of a foreground coordinate: the closure of `{p}`
under adjacency inside the foreground (`F.card` steps always suffice). -/
def component (v : Volume) (p : Coord) : Finset Coord :=
  if p ∈ fgSet v then reachAuxIn (fgSet v) (fgSet v).card {p} else ∅

/-- The voxel count of the connected component of `p`. -/
def compSize (v : Volume) (p : Coord) : Nat :=
  (component v p).card

/-- Scan-order index of a coordinate in an array with inner dimensions
`n2, n3`. -/
def scanIdx (n2 n3 : Nat) (p : Coord) : Nat :=
  p.1 * (n2 * n3) + p.2.1 * n3 + p.2.2

/-- Canonical representative of the component of `p`: the largest scan index
occurring in it. -/
def repIdx (v : Volume) (p : Coord) : Nat :=
  (component v p).sup (scanIdx v.n2 v.n3)

/-- The component representatives in order of first appearance in scan
order; its length is the number of connected components (`num_features`). -/
def repsList (v : Volume) : List Nat :=
  (((allCoordsL v.n1 v.n2 v.n3).filter fun p => decide (p ∈ fgSet v)).map
    (repIdx v)).dedup

/-- The count `num_features` returned by `scipy.ndimage.label`. -/
def numFeatures (v : Volume) : Nat :=
  (repsList v).length

/-- The label array returned by `scipy.ndimage.label`: `0` on background,
and the labels `1 .. num_features` on the components. -/
def labelOf (v : Volume) (p : Coord) : Nat :=
  if p ∈ fgSet v then (repsList v).indexOf (repIdx v p) + 1 else 0

/-- The quantity `nd_sum(mask_array > 0, labeled_array, l)`: the number of foreground
voxels carrying label `l`. -/
def componentSizeOfLabel (v : Volume) (l : Nat) : Nat :=
  ((fgSet v).filter fun p => labelOf v p = l).card

/-- One iteration of the masking loop of the source: if the component of
label `l` has fewer than `threshold` voxels, set the mask to `False` on
`labeled_array == l`. -/
def stepMask (t : Nat) (v : Volume) (m : Coord → Bool) (l : Nat) : Coord → Bool :=
  if componentSizeOfLabel v l < t then
    fun p => if labelOf v p = l then false else m p
  else m

/-- The `mask_size` array after the masking loop: it starts as
`mask_array > 0` and the loop runs over `range(num_features + 1)`. -/
def maskSmallRemoved (t : Nat) (v : Volume) : Coord → Bool :=
  (List.range (numFeatures v + 1)).foldl (stepMask t v)
    fun p => decide (p ∈ fgSet v)

/-- The assignment `mask_array = mask_array * mask_size`: elementwise product of the array
with the boolean inclusion mask. -/
def removeSmall (t : Nat) (v : Volume) : Volume :=
  { v with val := fun i j k =>
      v.val i j k * (if maskSmallRemoved t v (i, j, k) then 1 else 0) }

/-- Number of indices zeroed at the start of an axis of length `n` by the
numpy assignment `a[:m] = 0`. -/
def pyLo (m n : Nat) : Nat := min m n

/-- First index zeroed at the end of an axis of length `n` by the numpy
assignment `a[-m:] = 0`.  For `m = 0` the slice `a[-0:]` is `a[0:]`, i.e.
the whole axis; for `m > 0` the start clamps to `max (n - m) 0`. -/
def pyHi (m n : Nat) : Nat := if m = 0 then 0 else n - min m n

/-- The slice assignment `mask_array[:margin_padding, :, :] = 0`. -/
def flushLo0 (m : Nat) (v : Volume) : Volume :=
  { v with val := fun i j k => if i < pyLo m v.n1 then 0 else v.val i j k }

/-- The slice assignment `mask_array[-margin_padding:, :, :] = 0`. -/
def flushHi0 (m : Nat) (v : Volume) : Volume :=
  { v with val := fun i j k =>
      if pyHi m v.n1 ≤ i ∧ i < v.n1 then 0 else v.val i j k }

/-- The slice assignment `mask_array[:, :margin_padding, :] = 0`. -/
def flushLo1 (m : Nat) (v : Volume) : Volume :=
  { v with val := fun i j k => if j < pyLo m v.n2 then 0 else v.val i j k }

/-- The slice assignment `mask_array[:, -margin_padding:, :] = 0`. -/
def flushHi1 (m : Nat) (v : Volume) : Volume :=
  { v with val := fun i j k =>
      if pyHi m v.n2 ≤ j ∧ j < v.n2 then 0 else v.val i j k }

/-- The slice assignment `mask_array[:, :, :margin_padding] = 0`. -/
def flushLo2 (m : Nat) (v : Volume) : Volume :=
  { v with val := fun i j k => if k < pyLo m v.n3 then 0 else v.val i j k }

/-- The slice assignment `mask_array[:, :, -margin_padding:] = 0`. -/
def flushHi2 (m : Nat) (v : Volume) : Volume :=
  { v with val := fun i j k =>
      if pyHi m v.n3 ≤ k ∧ k < v.n3 then 0 else v.val i j k }

/-- The six border-flush slice assignments of the source, in order. -/
def borderFlush (m : Nat) (v : Volume) : Volume :=
  flushHi2 m (flushLo2 m (flushHi1 m (flushLo1 m (flushHi0 m (flushLo0 m v)))))

/-- The margin region zeroed by the border flush with margin `m`. -/
def inMarginP (m : Nat) (v : Volume) (i j k : Nat) : Prop :=
  i < pyLo m v.n1 ∨ (pyHi m v.n1 ≤ i ∧ i < v.n1) ∨
  j < pyLo m v.n2 ∨ (pyHi m v.n2 ≤ j ∧ j < v.n2) ∨
  k < pyLo m v.n3 ∨ (pyHi m v.n3 ≤ k ∧ k < v.n3)

/-- The count `np.sum(mask_array > 0)`: the number of strictly positive in-bounds
voxels. -/
def nonZeroCount (v : Volume) : Nat :=
  (fgSet v).card

/-- The array `np.zeros_like(mask_array)`. -/
def zerosLike (v : Volume) : Volume :=
  { v with val := fun _ _ _ => 0 }

/-- A SimpleITK image: a voxel array plus opaque spatial metadata
(origin, spacing, direction), abstracted as a type parameter.
`CopyInformation` copies the `meta` field. -/
structure Image (μ : Type) where
  vol : Volume
  meta : μ

/-- Modelled from the spec: `constants.MARGIN_SCALING_FACTOR` — the module
`lionz.constants` is not among the sources; the spec fixes the
margin-scaling constant at 3 (`threshold=10 ⇒ margin=30`). -/
def MARGIN_SCALING_FACTOR : Nat := 3

/-- The array held by `mask_array` after the border flush and the
small-component masking, just before the final count. -/
def cleanedArray (v : Volume) (t : Nat) : Volume :=
  removeSmall t (borderFlush (MARGIN_SCALING_FACTOR * t) v)

/-- The function `has_label_above_threshold(mask_path, threshold)`.

The on-disk image at `mask_path` is the input; the returned pair is the
boolean result together with the trace of images written to `mask_path` by
`sitk.WriteImage`, in order.  The body mirrors the source: border flush with
`margin_padding = MARGIN_SCALING_FACTOR * threshold`, connected-component
analysis and small-component masking, count of remaining positive voxels,
then either an all-zero write (returning `False`) or a write of the cleaned
array (returning `True`); both writes copy the input metadata. -/
def has_label_above_threshold (μ : Type) (img : Image μ) (threshold : Nat) :
    Bool × List (Image μ) :=
  let mask_array := img.vol
  let margin_padding := MARGIN_SCALING_FACTOR * threshold
  let flushed := borderFlush margin_padding mask_array
  let cleaned := removeSmall threshold flushed
  let non_zero_voxel_count := nonZeroCount cleaned
  if non_zero_voxel_count < threshold then
    (false, [⟨zerosLike cleaned, img.meta⟩])
  else
    (true, [⟨cleaned, img.meta⟩])

/-- The image left at `mask_path` after the call (the single write; the
default is never used since the write trace is never empty). -/
def writtenImage (μ : Type) (img : Image μ) (threshold : Nat) : Image μ :=
  ((has_label_above_threshold μ img threshold).2).headD img

/-- Two arrays are the same numpy array: equal shape and equal values at
every in-bounds index. -/
def Volume.sameAs (v w : Volume) : Prop :=
  v.n1 = w.n1 ∧ v.n2 = w.n2 ∧ v.n3 = w.n3 ∧
  ∀ i j k, i < v.n1 → j < v.n2 → k < v.n3 → v.val i j k = w.val i j k

/-- A 1-voxel test mask whose single voxel is labeled. -/
def vol1 : Volume := ⟨1, 1, 1, fun _ _ _ => 1⟩

/-- Image wrapping `vol1` with trivial metadata. -/
def img1 : Image Unit := ⟨vol1, ()⟩

/-- A 7-cube test mask with a single labeled voxel at its center, outside
the margin for `threshold = 1`. -/
def vol7 : Volume :=
  ⟨7, 7, 7, fun i j k => if i = 3 ∧ j = 3 ∧ k = 3 then 1 else 0⟩

/-- Image wrapping `vol7` with trivial metadata. -/
def img7 : Image Unit := ⟨vol7, ()⟩

/-- A 7-cube test mask with two adjacent labeled voxels at the center. -/
def vol7b : Volume :=
  ⟨7, 7, 7, fun i j k => if (i = 3 ∨ i = 4) ∧ j = 3 ∧ k = 3 then 1 else 0⟩

/-- Image wrapping `vol7b` with trivial metadata. -/
def img7b : Image Unit := ⟨vol7b, ()⟩

/-- A 13-cube test mask holding one 6-connected component of two voxels,
`(5,6,6)` and `(6,6,6)`: for `threshold = 2` the margin is 6, so `(5,6,6)`
lies in the margin while `(6,6,6)` is interior. -/
def cexVol : Volume :=
  ⟨13, 13, 13, fun i j k => if (i = 5 ∨ i = 6) ∧ j = 6 ∧ k = 6 then 1 else 0⟩

/-- Image wrapping `cexVol` with trivial metadata. -/
def cexImg : Image Unit := ⟨cexVol, ()⟩

/-- The closed enumeration of control actions bound to rule outcomes. -/
inductive RuleAction where
  | stop : RuleAction
  | «continue» : RuleAction
deriving DecidableEq

/-- A configured rule: a validation function bound together with its
parameter mapping (`{"threshold": 10}` is modelled as the bound `Nat`),
plus the two outcome actions. -/
structure Rule (μ : Type) where
  rule_func : (Image μ → Nat → Bool × List (Image μ)) × Nat
  action_on_true : RuleAction
  action_on_false : RuleAction

/-- The `RULES` table of the source: only `("fdg", "pet_ct")` is
configured, binding `has_label_above_threshold` with `threshold = 10` and
`stop` on both outcomes. -/
def RULES (μ : Type) (tracer workflow : String) : Option (Rule μ) :=
  if tracer = "fdg" ∧ workflow = "pet_ct" then
    some ⟨(has_label_above_threshold μ, 10), RuleAction.stop, RuleAction.stop⟩
  else none

/-! ## Basic lemmas -/

theorem mem_allCoordsF {n1 n2 n3 : Nat} {p : Coord} :
    p ∈ allCoordsF n1 n2 n3 ↔ p.1 < n1 ∧ p.2.1 < n2 ∧ p.2.2 < n3 := by
  simp [allCoordsF, Finset.mem_product]

theorem mem_fgSet {v : Volume} {p : Coord} :
    p ∈ fgSet v ↔
      (p.1 < v.n1 ∧ p.2.1 < v.n2 ∧ p.2.2 < v.n3) ∧ 0 < v.val p.1 p.2.1 p.2.2 := by
  simp [fgSet, mem_allCoordsF]

theorem mem_allCoordsL {n1 n2 n3 : Nat} {p : Coord} :
    p ∈ allCoordsL n1 n2 n3 ↔ p.1 < n1 ∧ p.2.1 < n2 ∧ p.2.2 < n3 := by
  obtain ⟨i, j, k⟩ := p
  simp [allCoordsL]
  constructor
  · rintro ⟨a, ha, b, hb, c, hc, h1, h2, h3⟩
    subst h1; subst h2; subst h3; exact ⟨ha, hb, hc⟩
  · rintro ⟨h1, h2, h3⟩
    exact ⟨i, h1, j, h2, k, h3, rfl, rfl, rfl⟩

theorem adjb_symm {p q : Coord} : adjb p q = true ↔ adjb q p = true := by
  obtain ⟨a, b, c⟩ := p
  obtain ⟨d, e, f⟩ := q
  simp only [adjb, Bool.or_eq_true, Bool.and_eq_true, decide_eq_true_eq]
  constructor <;> intro h <;> omega

theorem borderFlush_n1 (m : Nat) (v : Volume) : (borderFlush m v).n1 = v.n1 := rfl

theorem borderFlush_n2 (m : Nat) (v : Volume) : (borderFlush m v).n2 = v.n2 := rfl

theorem borderFlush_n3 (m : Nat) (v : Volume) : (borderFlush m v).n3 = v.n3 := rfl

theorem removeSmall_n1 (t : Nat) (v : Volume) : (removeSmall t v).n1 = v.n1 := rfl

theorem removeSmall_n2 (t : Nat) (v : Volume) : (removeSmall t v).n2 = v.n2 := rfl

theorem removeSmall_n3 (t : Nat) (v : Volume) : (removeSmall t v).n3 = v.n3 := rfl

instance (m : Nat) (v : Volume) (i j k : Nat) : Decidable (inMarginP m v i j k) := by
  unfold inMarginP
  exact inferInstance

theorem borderFlush_val (m : Nat) (v : Volume) (i j k : Nat) :
    (borderFlush m v).val i j k =
      if inMarginP m v i j k then 0 else v.val i j k := by
  simp only [borderFlush, flushHi2, flushLo2, flushHi1, flushLo1, flushHi0,
    flushLo0]
  by_cases h1 : i < pyLo m v.n1 <;>
  by_cases h2 : pyHi m v.n1 ≤ i ∧ i < v.n1 <;>
  by_cases h3 : j < pyLo m v.n2 <;>
  by_cases h4 : pyHi m v.n2 ≤ j ∧ j < v.n2 <;>
  by_cases h5 : k < pyLo m v.n3 <;>
  by_cases h6 : pyHi m v.n3 ≤ k ∧ k < v.n3 <;>
  simp [inMarginP, h1, h2, h3, h4, h5, h6]

theorem borderFlush_val_of_margin {m : Nat} {v : Volume} {i j k : Nat}
    (h : inMarginP m v i j k) : (borderFlush m v).val i j k = 0 := by
  rw [borderFlush_val, if_pos h]

theorem borderFlush_val_of_not_margin {m : Nat} {v : Volume} {i j k : Nat}
    (h : ¬ inMarginP m v i j k) : (borderFlush m v).val i j k = v.val i j k := by
  rw [borderFlush_val, if_neg h]

theorem Volume.ext_fields {v w : Volume} (h1 : v.n1 = w.n1) (h2 : v.n2 = w.n2)
    (h3 : v.n3 = w.n3) (h4 : v.val = w.val) : v = w := by
  cases v
  cases w
  simp only at h1 h2 h3 h4
  subst h1
  subst h2
  subst h3
  subst h4
  rfl

theorem borderFlush_eq (m : Nat) (v : Volume) :
    borderFlush m v =
      ⟨v.n1, v.n2, v.n3,
        fun i j k => if inMarginP m v i j k then 0 else v.val i j k⟩ :=
  Volume.ext_fields (borderFlush_n1 m v) (borderFlush_n2 m v)
    (borderFlush_n3 m v)
    (funext fun i => funext fun j => funext fun k => borderFlush_val m v i j k)

theorem inMarginP_congr {v w : Volume} (h1 : v.n1 = w.n1) (h2 : v.n2 = w.n2)
    (h3 : v.n3 = w.n3) (m i j k : Nat) :
    inMarginP m v i j k ↔ inMarginP m w i j k := by
  unfold inMarginP
  rw [h1, h2, h3]

/-! ## Connected-component correctness -/

theorem mem_nbrsIn {F s : Finset Coord} {q : Coord} :
    q ∈ nbrsIn F s ↔ q ∈ F ∧ (q ∈ s ∨ ∃ p ∈ s, adjb p q = true) := by
  simp [nbrsIn]

theorem nbrsIn_subset (F s : Finset Coord) : nbrsIn F s ⊆ F :=
  Finset.filter_subset _ _

theorem subset_nbrsIn (F s : Finset Coord) (hs : s ⊆ F) : s ⊆ nbrsIn F s := by
  intro q hq
  rw [mem_nbrsIn]
  exact ⟨hs hq, Or.inl hq⟩

theorem reachAuxIn_subset (F : Finset Coord) :
    ∀ n s, s ⊆ F → reachAuxIn F n s ⊆ F := by
  intro n
  induction n with
  | zero => intro s hs; exact hs
  | succ n ih => intro s _; exact ih (nbrsIn F s) (nbrsIn_subset F s)

theorem subset_reachAuxIn (F : Finset Coord) :
    ∀ n s, s ⊆ F → s ⊆ reachAuxIn F n s := by
  intro n
  induction n with
  | zero => intro s _; exact Finset.Subset.refl s
  | succ n ih =>
    intro s hs
    exact Finset.Subset.trans (subset_nbrsIn F s hs)
      (ih (nbrsIn F s) (nbrsIn_subset F s))

theorem reachAuxIn_of_fixed {F s : Finset Coord} (h : nbrsIn F s = s) :
    ∀ n, reachAuxIn F n s = s := by
  intro n
  induction n with
  | zero => rfl
  | succ n ih =>
    show reachAuxIn F n (nbrsIn F s) = s
    rw [h, ih]

theorem reachAuxIn_closed (F : Finset Coord) :
    ∀ n s, s ⊆ F → F.card ≤ n + s.card →
      nbrsIn F (reachAuxIn F n s) = reachAuxIn F n s := by
  intro n
  induction n with
  | zero =>
    intro s hs hcard
    have hF : s = F := Finset.eq_of_subset_of_card_le hs (by simpa using hcard)
    subst hF
    exact Finset.Subset.antisymm (nbrsIn_subset _ _)
      (subset_nbrsIn _ _ (Finset.Subset.refl s))
  | succ n ih =>
    intro s hs hcard
    by_cases hfix : nbrsIn F s = s
    · show nbrsIn F (reachAuxIn F n (nbrsIn F s)) = reachAuxIn F n (nbrsIn F s)
      rw [hfix, reachAuxIn_of_fixed hfix]
      exact hfix
    · have hss : s ⊂ nbrsIn F s :=
        Finset.ssubset_iff_subset_ne.mpr ⟨subset_nbrsIn F s hs, Ne.symm hfix⟩
      have hlt := Finset.card_lt_card hss
      exact ih (nbrsIn F s) (nbrsIn_subset F s) (by omega)

theorem reachAuxIn_sound (F : Finset Coord) :
    ∀ n s, s ⊆ F → ∀ q ∈ reachAuxIn F n s, ∃ p ∈ s, ReachIn F p q := by
  intro n
  induction n with
  | zero =>
    intro s _ q hq
    exact ⟨q, hq, Relation.ReflTransGen.refl⟩
  | succ n ih =>
    intro s hs q hq
    obtain ⟨r, hr, hreach⟩ := ih (nbrsIn F s) (nbrsIn_subset F s) q hq
    rw [mem_nbrsIn] at hr
    obtain ⟨hrF, hrs | ⟨p, hps, hadj⟩⟩ := hr
    · exact ⟨r, hrs, hreach⟩
    · exact ⟨p, hps, Relation.ReflTransGen.head ⟨hs hps, hrF, hadj⟩ hreach⟩

theorem closed_absorbs {F c : Finset Coord} (hc : nbrsIn F c = c) {p q : Coord}
    (hp : p ∈ c) (h : ReachIn F p q) : q ∈ c := by
  induction h with
  | refl => exact hp
  | tail _ hbq ih =>
    rw [← hc, mem_nbrsIn]
    exact ⟨hbq.2.1, Or.inr ⟨_, ih, hbq.2.2⟩⟩

theorem mem_component {v : Volume} {p q : Coord} (hp : p ∈ fgSet v) :
    q ∈ component v p ↔ q ∈ fgSet v ∧ ReachIn (fgSet v) p q := by
  unfold component
  rw [if_pos hp]
  have hsub : ({p} : Finset Coord) ⊆ fgSet v := by simpa using hp
  constructor
  · intro hq
    have hqF : q ∈ fgSet v := reachAuxIn_subset _ _ _ hsub hq
    obtain ⟨r, hr, hreach⟩ := reachAuxIn_sound (fgSet v) _ {p} hsub q hq
    rw [Finset.mem_singleton] at hr
    subst hr
    exact ⟨hqF, hreach⟩
  · rintro ⟨_, hreach⟩
    have hclosed := reachAuxIn_closed (fgSet v) (fgSet v).card {p} hsub (by simp)
    have hpin : p ∈ reachAuxIn (fgSet v) (fgSet v).card {p} :=
      subset_reachAuxIn _ _ _ hsub (Finset.mem_singleton_self p)
    exact closed_absorbs hclosed hpin hreach

theorem StepIn_symm {F : Finset Coord} {p q : Coord} (h : StepIn F p q) :
    StepIn F q p :=
  ⟨h.2.1, h.1, adjb_symm.mp h.2.2⟩

theorem ReachIn_symm {F : Finset Coord} {p q : Coord} (h : ReachIn F p q) :
    ReachIn F q p := by
  induction h with
  | refl => exact Relation.ReflTransGen.refl
  | tail _ hbq ih => exact Relation.ReflTransGen.head (StepIn_symm hbq) ih

theorem self_mem_component {v : Volume} {p : Coord} (hp : p ∈ fgSet v) :
    p ∈ component v p :=
  (mem_component hp).mpr ⟨hp, Relation.ReflTransGen.refl⟩

theorem component_eq_of_reach {v : Volume} {p q : Coord} (hp : p ∈ fgSet v)
    (hq : q ∈ fgSet v) (h : ReachIn (fgSet v) p q) :
    component v p = component v q := by
  ext x
  rw [mem_component hp, mem_component hq]
  constructor
  · rintro ⟨hx, hr⟩
    exact ⟨hx, Relation.ReflTransGen.trans (ReachIn_symm h) hr⟩
  · rintro ⟨hx, hr⟩
    exact ⟨hx, Relation.ReflTransGen.trans h hr⟩

theorem component_eq_of_mem {v : Volume} {p q : Coord} (hp : p ∈ fgSet v)
    (hq : q ∈ component v p) : component v q = component v p := by
  obtain ⟨hqF, hr⟩ := (mem_component hp).mp hq
  exact (component_eq_of_reach hp hqF hr).symm

theorem component_subset_fgSet (v : Volume) (p : Coord) :
    component v p ⊆ fgSet v := by
  unfold component
  by_cases hp : p ∈ fgSet v
  · rw [if_pos hp]
    exact reachAuxIn_subset _ _ _ (by simpa using hp)
  · rw [if_neg hp]
    exact Finset.empty_subset _

theorem compSize_le_card (v : Volume) (p : Coord) :
    compSize v p ≤ (fgSet v).card :=
  Finset.card_le_card (component_subset_fgSet v p)

/-! ## Labeling correctness -/

theorem scanIdx_inj {n2 n3 : Nat} {p q : Coord}
    (hp2 : p.2.1 < n2) (hp3 : p.2.2 < n3) (hq2 : q.2.1 < n2) (hq3 : q.2.2 < n3)
    (h : scanIdx n2 n3 p = scanIdx n2 n3 q) : p = q := by
  obtain ⟨a, b, c⟩ := p
  obtain ⟨d, e, f⟩ := q
  simp only [scanIdx] at h
  simp only at hp2 hp3 hq2 hq3
  have h3 : 0 < n3 := by omega
  have h23 : 0 < n2 * n3 := Nat.mul_pos (by omega) h3
  have hbc : b * n3 + c < n2 * n3 := by
    have h1 : (b + 1) * n3 ≤ n2 * n3 := Nat.mul_le_mul_right _ (by omega)
    have h2 : (b + 1) * n3 = b * n3 + n3 := by ring
    omega
  have hef : e * n3 + f < n2 * n3 := by
    have h1 : (e + 1) * n3 ≤ n2 * n3 := Nat.mul_le_mul_right _ (by omega)
    have h2 : (e + 1) * n3 = e * n3 + n3 := by ring
    omega
  have ha : a = d := by
    have hdiv := congrArg (fun x => x / (n2 * n3)) h
    simp only at hdiv
    rw [show a * (n2 * n3) + b * n3 + c = n2 * n3 * a + (b * n3 + c) by ring,
      show d * (n2 * n3) + e * n3 + f = n2 * n3 * d + (e * n3 + f) by ring,
      Nat.mul_add_div h23, Nat.mul_add_div h23,
      Nat.div_eq_of_lt hbc, Nat.div_eq_of_lt hef] at hdiv
    omega
  subst ha
  have hbcef : b * n3 + c = e * n3 + f := by omega
  have hb : b = e := by
    have hdiv := congrArg (fun x => x / n3) hbcef
    simp only at hdiv
    rw [show b * n3 + c = n3 * b + c by ring, show e * n3 + f = n3 * e + f by ring,
      Nat.mul_add_div h3, Nat.mul_add_div h3,
      Nat.div_eq_of_lt hp3, Nat.div_eq_of_lt hq3] at hdiv
    omega
  subst hb
  have hc : c = f := by omega
  rw [hc]

theorem exists_repIdx {v : Volume} {p : Coord} (hp : p ∈ fgSet v) :
    ∃ a ∈ component v p, scanIdx v.n2 v.n3 a = repIdx v p := by
  obtain ⟨a, ha, hs⟩ := Finset.exists_mem_eq_sup (component v p)
    ⟨p, self_mem_component hp⟩ (scanIdx v.n2 v.n3)
  exact ⟨a, ha, hs.symm⟩

theorem component_eq_of_repIdx_eq {v : Volume} {p q : Coord}
    (hp : p ∈ fgSet v) (hq : q ∈ fgSet v) (h : repIdx v p = repIdx v q) :
    component v p = component v q := by
  obtain ⟨a, ha, hsa⟩ := exists_repIdx hp
  obtain ⟨b, hb, hsb⟩ := exists_repIdx hq
  have haF := mem_fgSet.mp (component_subset_fgSet v p ha)
  have hbF := mem_fgSet.mp (component_subset_fgSet v q hb)
  have hab : a = b := by
    apply scanIdx_inj haF.1.2.1 haF.1.2.2 hbF.1.2.1 hbF.1.2.2
    rw [hsa, hsb, h]
  subst hab
  rw [← component_eq_of_mem hp ha, ← component_eq_of_mem hq hb]

theorem repIdx_eq_of_component_eq {v : Volume} {p q : Coord}
    (h : component v p = component v q) : repIdx v p = repIdx v q := by
  unfold repIdx
  rw [h]

theorem repIdx_mem_repsList {v : Volume} {p : Coord} (hp : p ∈ fgSet v) :
    repIdx v p ∈ repsList v := by
  unfold repsList
  rw [List.mem_dedup]
  apply List.mem_map_of_mem
  rw [List.mem_filter]
  refine ⟨?_, by simpa using hp⟩
  rw [mem_allCoordsL]
  exact (mem_fgSet.mp hp).1

theorem labelOf_eq_iff {v : Volume} {p q : Coord} (hp : p ∈ fgSet v)
    (hq : q ∈ fgSet v) :
    labelOf v p = labelOf v q ↔ component v p = component v q := by
  unfold labelOf
  rw [if_pos hp, if_pos hq]
  constructor
  · intro h
    have h' : (repsList v).indexOf (repIdx v p) =
        (repsList v).indexOf (repIdx v q) := by omega
    have := (List.indexOf_inj (repIdx_mem_repsList hp)
      (repIdx_mem_repsList hq)).mp h'
    exact component_eq_of_repIdx_eq hp hq this
  · intro h
    rw [repIdx_eq_of_component_eq h]

theorem labelOf_le_numFeatures {v : Volume} {p : Coord} (hp : p ∈ fgSet v) :
    labelOf v p ≤ numFeatures v := by
  unfold labelOf numFeatures
  rw [if_pos hp]
  have := List.indexOf_lt_length.mpr (repIdx_mem_repsList hp)
  omega

theorem componentSizeOfLabel_labelOf {v : Volume} {p : Coord}
    (hp : p ∈ fgSet v) :
    componentSizeOfLabel v (labelOf v p) = compSize v p := by
  unfold componentSizeOfLabel compSize
  congr 1
  ext q
  rw [Finset.mem_filter]
  constructor
  · rintro ⟨hqF, hlab⟩
    have hcomp := (labelOf_eq_iff hqF hp).mp hlab
    rw [← hcomp]
    exact self_mem_component hqF
  · intro hq
    have hqF : q ∈ fgSet v := component_subset_fgSet v p hq
    exact ⟨hqF, (labelOf_eq_iff hqF hp).mpr (component_eq_of_mem hp hq)⟩

/-! ## The masking loop -/

theorem foldl_stepMask (t : Nat) (v : Volume) :
    ∀ (L : List Nat) (m : Coord → Bool) (p : Coord),
      (L.foldl (stepMask t v) m) p =
        (m p && !(L.any fun l =>
          decide (componentSizeOfLabel v l < t) && decide (labelOf v p = l))) := by
  intro L
  induction L with
  | nil => intro m p; simp
  | cons l L ih =>
    intro m p
    rw [List.foldl_cons, ih, List.any_cons]
    unfold stepMask
    by_cases h1 : componentSizeOfLabel v l < t
    · rw [if_pos h1]
      by_cases h2 : labelOf v p = l
      · simp [h1, h2]
      · simp [h1, h2]
    · rw [if_neg h1]
      simp [h1]

theorem maskSmallRemoved_eq (t : Nat) (v : Volume) (p : Coord) :
    maskSmallRemoved t v p =
      (decide (p ∈ fgSet v) && decide (t ≤ compSize v p)) := by
  unfold maskSmallRemoved
  rw [foldl_stepMask]
  by_cases hp : p ∈ fgSet v
  · have hmem : labelOf v p ∈ List.range (numFeatures v + 1) := by
      rw [List.mem_range]
      have := labelOf_le_numFeatures hp
      omega
    by_cases hsize : componentSizeOfLabel v (labelOf v p) < t
    · have hany : ((List.range (numFeatures v + 1)).any fun l =>
          decide (componentSizeOfLabel v l < t) && decide (labelOf v p = l)) = true := by
        rw [List.any_eq_true]
        exact ⟨labelOf v p, hmem, by simp [hsize]⟩
      have hlt : ¬ t ≤ compSize v p := by
        rw [← componentSizeOfLabel_labelOf hp]
        omega
      simp [hany, hp, hlt]
    · have hany : ((List.range (numFeatures v + 1)).any fun l =>
          decide (componentSizeOfLabel v l < t) && decide (labelOf v p = l)) = false := by
        rw [List.any_eq_false]
        intro l _
        simp only [Bool.and_eq_true, decide_eq_true_eq, not_and]
        intro hlt hleq
        rw [← hleq] at hlt
        exact hsize hlt
      have hle : t ≤ compSize v p := by
        rw [← componentSizeOfLabel_labelOf hp]
        omega
      simp [hany, hp, hle]
  · simp [hp]

theorem removeSmall_val (t : Nat) (v : Volume) (i j k : Nat) :
    (removeSmall t v).val i j k =
      if ((i, j, k) : Coord) ∈ fgSet v ∧ t ≤ compSize v (i, j, k) then
        v.val i j k else 0 := by
  show v.val i j k * (if maskSmallRemoved t v (i, j, k) then 1 else 0) = _
  rw [maskSmallRemoved_eq]
  by_cases h1 : ((i, j, k) : Coord) ∈ fgSet v
  · by_cases h2 : t ≤ compSize v (i, j, k)
    · simp [h1, h2]
    · simp [h1, h2]
  · simp [h1]

theorem fgSet_removeSmall (t : Nat) (v : Volume) :
    fgSet (removeSmall t v) = (fgSet v).filter fun p => t ≤ compSize v p := by
  ext p
  obtain ⟨i, j, k⟩ := p
  rw [Finset.mem_filter]
  constructor
  · intro h
    have hv := (mem_fgSet.mp h).2
    rw [removeSmall_val] at hv
    by_cases hc : ((i, j, k) : Coord) ∈ fgSet v ∧ t ≤ compSize v (i, j, k)
    · exact hc
    · rw [if_neg hc] at hv
      exact absurd hv (lt_irrefl 0)
  · rintro ⟨hf, hs⟩
    rw [mem_fgSet]
    refine ⟨(mem_fgSet.mp hf).1, ?_⟩
    rw [show (removeSmall t v).val i j k = _ from removeSmall_val t v i j k,
      if_pos ⟨hf, hs⟩]
    exact (mem_fgSet.mp hf).2

/-! ## Invariance under in-bounds equality of arrays -/

theorem sameAs_refl (v : Volume) : v.sameAs v :=
  ⟨rfl, rfl, rfl, fun _ _ _ _ _ _ => rfl⟩

theorem sameAs_symm {v w : Volume} (h : v.sameAs w) : w.sameAs v := by
  obtain ⟨h1, h2, h3, hval⟩ := h
  exact ⟨h1.symm, h2.symm, h3.symm, fun i j k hi hj hk =>
    (hval i j k (h1 ▸ hi) (h2 ▸ hj) (h3 ▸ hk)).symm⟩

theorem sameAs_trans {u v w : Volume} (h : u.sameAs v) (h' : v.sameAs w) :
    u.sameAs w := by
  obtain ⟨h1, h2, h3, hval⟩ := h
  obtain ⟨g1, g2, g3, gval⟩ := h'
  exact ⟨h1.trans g1, h2.trans g2, h3.trans g3, fun i j k hi hj hk =>
    (hval i j k hi hj hk).trans
      (gval i j k (h1 ▸ hi) (h2 ▸ hj) (h3 ▸ hk))⟩

theorem fgSet_congr {v w : Volume} (h : v.sameAs w) : fgSet v = fgSet w := by
  obtain ⟨h1, h2, h3, hval⟩ := h
  ext p
  obtain ⟨i, j, k⟩ := p
  rw [mem_fgSet, mem_fgSet]
  dsimp only
  constructor
  · rintro ⟨⟨hb1, hb2, hb3⟩, hv⟩
    refine ⟨⟨by omega, by omega, by omega⟩, ?_⟩
    rw [← hval i j k hb1 hb2 hb3]
    exact hv
  · rintro ⟨⟨hb1, hb2, hb3⟩, hv⟩
    have hc1 : i < v.n1 := by omega
    have hc2 : j < v.n2 := by omega
    have hc3 : k < v.n3 := by omega
    refine ⟨⟨hc1, hc2, hc3⟩, ?_⟩
    rw [hval i j k hc1 hc2 hc3]
    exact hv

theorem component_congr {v w : Volume} (h : v.sameAs w) (p : Coord) :
    component v p = component w p := by
  unfold component
  rw [fgSet_congr h]

theorem compSize_congr {v w : Volume} (h : v.sameAs w) (p : Coord) :
    compSize v p = compSize w p := by
  unfold compSize
  rw [component_congr h]

theorem repIdx_congr {v w : Volume} (h : v.sameAs w) (p : Coord) :
    repIdx v p = repIdx w p := by
  unfold repIdx
  rw [component_congr h p, h.2.1, h.2.2.1]

theorem repsList_congr {v w : Volume} (h : v.sameAs w) :
    repsList v = repsList w := by
  unfold repsList
  have hrep : repIdx v = repIdx w := funext fun p => repIdx_congr h p
  rw [h.1, h.2.1, h.2.2.1, fgSet_congr h, hrep]

theorem numFeatures_congr {v w : Volume} (h : v.sameAs w) :
    numFeatures v = numFeatures w := by
  unfold numFeatures
  rw [repsList_congr h]

theorem labelOf_congr {v w : Volume} (h : v.sameAs w) (p : Coord) :
    labelOf v p = labelOf w p := by
  unfold labelOf
  rw [fgSet_congr h, repsList_congr h, repIdx_congr h p]

theorem componentSizeOfLabel_congr {v w : Volume} (h : v.sameAs w) (l : Nat) :
    componentSizeOfLabel v l = componentSizeOfLabel w l := by
  unfold componentSizeOfLabel
  have hlab : labelOf v = labelOf w := funext fun p => labelOf_congr h p
  rw [fgSet_congr h, hlab]

theorem maskSmallRemoved_congr {v w : Volume} (h : v.sameAs w) (t : Nat)
    (p : Coord) : maskSmallRemoved t v p = maskSmallRemoved t w p := by
  rw [maskSmallRemoved_eq, maskSmallRemoved_eq, fgSet_congr h,
    compSize_congr h p]

theorem removeSmall_congr {v w : Volume} (h : v.sameAs w) (t : Nat) :
    (removeSmall t v).sameAs (removeSmall t w) := by
  refine ⟨h.1, h.2.1, h.2.2.1, ?_⟩
  intro i j k hi hj hk
  show v.val i j k * _ = w.val i j k * _
  rw [maskSmallRemoved_congr h, h.2.2.2 i j k hi hj hk]

theorem nonZeroCount_congr {v w : Volume} (h : v.sameAs w) :
    nonZeroCount v = nonZeroCount w := by
  unfold nonZeroCount
  rw [fgSet_congr h]

/-! ## Pipeline helpers -/

theorem hlat_spec (μ : Type) (img : Image μ) (t : Nat) :
    has_label_above_threshold μ img t =
      if nonZeroCount (cleanedArray img.vol t) < t then
        (false, [⟨zerosLike (cleanedArray img.vol t), img.meta⟩])
      else (true, [⟨cleanedArray img.vol t, img.meta⟩]) := rfl

theorem hlat_fst_true_iff (μ : Type) (img : Image μ) (t : Nat) :
    (has_label_above_threshold μ img t).1 = true ↔
      t ≤ nonZeroCount (cleanedArray img.vol t) := by
  rw [hlat_spec]
  split_ifs with h
  · simp only [Bool.false_eq_true, false_iff]
    omega
  · simp only [true_iff]
    omega

theorem hlat_fst_false_iff (μ : Type) (img : Image μ) (t : Nat) :
    (has_label_above_threshold μ img t).1 = false ↔
      nonZeroCount (cleanedArray img.vol t) < t := by
  rw [hlat_spec]
  split_ifs with h
  · simpa using h
  · simp only [Bool.true_eq_false, false_iff]
    omega

theorem hlat_writes (μ : Type) (img : Image μ) (t : Nat) :
    (has_label_above_threshold μ img t).2 = [writtenImage μ img t] := by
  unfold writtenImage
  by_cases h : nonZeroCount (cleanedArray img.vol t) < t
  · rw [hlat_spec, if_pos h]
    rfl
  · rw [hlat_spec, if_neg h]
    rfl

theorem writtenImage_meta (μ : Type) (img : Image μ) (t : Nat) :
    (writtenImage μ img t).meta = img.meta := by
  unfold writtenImage
  by_cases h : nonZeroCount (cleanedArray img.vol t) < t
  · rw [hlat_spec, if_pos h]
    simp only [List.headD_cons]
  · rw [hlat_spec, if_neg h]
    simp only [List.headD_cons]

theorem writtenImage_vol_of_false {μ : Type} {img : Image μ} {t : Nat}
    (h : nonZeroCount (cleanedArray img.vol t) < t) :
    (writtenImage μ img t).vol = zerosLike (cleanedArray img.vol t) := by
  unfold writtenImage
  rw [hlat_spec, if_pos h]
  rfl

theorem writtenImage_vol_of_true {μ : Type} {img : Image μ} {t : Nat}
    (h : ¬ nonZeroCount (cleanedArray img.vol t) < t) :
    (writtenImage μ img t).vol = cleanedArray img.vol t := by
  unfold writtenImage
  rw [hlat_spec, if_neg h]
  rfl

/-! ## Cleaning is idempotent on components -/

theorem fg_removeSmall_iff {t : Nat} {v : Volume} {p : Coord} :
    p ∈ fgSet (removeSmall t v) ↔ p ∈ fgSet v ∧ t ≤ compSize v p := by
  rw [fgSet_removeSmall]
  simp

theorem removeSmall_reach {t : Nat} {v : Volume} {p q : Coord}
    (hp : p ∈ fgSet (removeSmall t v)) (h : ReachIn (fgSet v) p q) :
    q ∈ fgSet (removeSmall t v) ∧ ReachIn (fgSet (removeSmall t v)) p q := by
  induction h with
  | refl => exact ⟨hp, Relation.ReflTransGen.refl⟩
  | @tail b c hab hbq ih =>
    obtain ⟨hbKept, hWreach⟩ := ih
    obtain ⟨hpv, hpsize⟩ := fg_removeSmall_iff.mp hp
    have hqv : c ∈ fgSet v := hbq.2.1
    have hreach_pq := Relation.ReflTransGen.tail hab hbq
    have hsize : compSize v c = compSize v p := by
      unfold compSize
      rw [← component_eq_of_reach hpv hqv hreach_pq]
    have hqKept : c ∈ fgSet (removeSmall t v) :=
      fg_removeSmall_iff.mpr ⟨hqv, by omega⟩
    exact ⟨hqKept, Relation.ReflTransGen.tail hWreach ⟨hbKept, hqKept, hbq.2.2⟩⟩

theorem component_removeSmall {t : Nat} {v : Volume} {p : Coord}
    (hp : p ∈ fgSet (removeSmall t v)) :
    component (removeSmall t v) p = component v p := by
  have hpv := (fg_removeSmall_iff.mp hp).1
  ext q
  rw [mem_component hp, mem_component hpv]
  constructor
  · rintro ⟨hq, hr⟩
    refine ⟨(fg_removeSmall_iff.mp hq).1, ?_⟩
    exact Relation.ReflTransGen.mono
      (fun a b hab =>
        ⟨(fg_removeSmall_iff.mp hab.1).1, (fg_removeSmall_iff.mp hab.2.1).1,
          hab.2.2⟩) hr
  · rintro ⟨_, hr⟩
    exact removeSmall_reach hp hr

theorem removeSmall_sameAs_self (t : Nat) (v : Volume) :
    (removeSmall t (removeSmall t v)).sameAs (removeSmall t v) := by
  refine ⟨rfl, rfl, rfl, ?_⟩
  intro i j k _ _ _
  rw [removeSmall_val]
  by_cases h : ((i, j, k) : Coord) ∈ fgSet (removeSmall t v)
  · have hsize : t ≤ compSize (removeSmall t v) (i, j, k) := by
      unfold compSize
      rw [component_removeSmall h]
      exact (fg_removeSmall_iff.mp h).2
    rw [if_pos ⟨h, hsize⟩]
  · rw [if_neg fun hc => h hc.1, removeSmall_val]
    by_cases h2 : ((i, j, k) : Coord) ∈ fgSet v ∧ t ≤ compSize v (i, j, k)
    · exact absurd (fg_removeSmall_iff.mpr h2) h
    · rw [if_neg h2]

/-! ## Margin and big-component helpers -/

theorem borderFlush_sameAs_of_margin_zero {m : Nat} {v : Volume}
    (h : ∀ i j k, i < v.n1 → j < v.n2 → k < v.n3 →
      inMarginP m v i j k → v.val i j k = 0) :
    (borderFlush m v).sameAs v := by
  rw [borderFlush_eq]
  refine ⟨rfl, rfl, rfl, ?_⟩
  intro i j k hi hj hk
  dsimp only
  rcases Classical.em (inMarginP m v i j k) with hm | hm
  · rw [if_pos hm]
    exact (h i j k hi hj hk hm).symm
  · rw [if_neg hm]

theorem cleanedArray_margin_zero (v : Volume) (t : Nat) :
    ∀ i j k, inMarginP (MARGIN_SCALING_FACTOR * t) v i j k →
      (cleanedArray v t).val i j k = 0 := by
  intro i j k hm
  unfold cleanedArray
  rw [removeSmall_val]
  by_cases hc : ((i, j, k) : Coord) ∈
      fgSet (borderFlush (MARGIN_SCALING_FACTOR * t) v) ∧
      t ≤ compSize (borderFlush (MARGIN_SCALING_FACTOR * t) v) (i, j, k)
  · exfalso
    have hv := (mem_fgSet.mp hc.1).2
    dsimp only at hv
    rw [borderFlush_val_of_margin hm] at hv
    exact lt_irrefl 0 hv
  · rw [if_neg hc]

theorem writtenImage_margin_zero (μ : Type) (img : Image μ) (t : Nat) :
    ∀ i j k, inMarginP (MARGIN_SCALING_FACTOR * t) img.vol i j k →
      (writtenImage μ img t).vol.val i j k = 0 := by
  intro i j k hm
  by_cases h : nonZeroCount (cleanedArray img.vol t) < t
  · rw [writtenImage_vol_of_false h]
    rfl
  · rw [writtenImage_vol_of_true h]
    exact cleanedArray_margin_zero img.vol t i j k hm

theorem removeSmall_sameAs_of_all_big {t : Nat} {v : Volume}
    (hnn : ∀ i j k, i < v.n1 → j < v.n2 → k < v.n3 → 0 ≤ v.val i j k)
    (hbig : ∀ p ∈ fgSet v, t ≤ compSize v p) :
    (removeSmall t v).sameAs v := by
  refine ⟨rfl, rfl, rfl, ?_⟩
  intro i j k hi hj hk
  rw [removeSmall_val]
  by_cases hf : ((i, j, k) : Coord) ∈ fgSet v
  · rw [if_pos ⟨hf, hbig _ hf⟩]
  · rw [if_neg fun hc => hf hc.1]
    have h1 := hnn i j k hi hj hk
    have h2 : ¬ 0 < v.val i j k := fun hp =>
      hf (mem_fgSet.mpr ⟨⟨hi, hj, hk⟩, hp⟩)
    omega

theorem count_ge_of_nonempty_big {t : Nat} {v : Volume}
    (hne : (fgSet v).Nonempty) (hbig : ∀ p ∈ fgSet v, t ≤ compSize v p) :
    t ≤ nonZeroCount v := by
  obtain ⟨p, hp⟩ := hne
  exact le_trans (hbig p hp) (compSize_le_card v p)

/-! ## Claim theorems -/

/-- Claim C1. For every input volume and every positive threshold,
`has_label_above_threshold` returns `true` if and only if the number of
non-zero voxels remaining after the border flush and the small-component
removal is at least `threshold`; when that count is strictly less than
`threshold`, the persisted output volume is entirely zero and the function
returns `false`. -/
theorem C1_result_iff_count (μ : Type) (img : Image μ) (t : Nat)
    (ht : 0 < t) :
    ((has_label_above_threshold μ img t).1 = true ↔
      t ≤ nonZeroCount (cleanedArray img.vol t)) ∧
    (nonZeroCount (cleanedArray img.vol t) < t →
      (has_label_above_threshold μ img t).1 = false ∧
      ∀ i j k, (writtenImage μ img t).vol.val i j k = 0) := by
  refine ⟨hlat_fst_true_iff μ img t, fun h => ⟨(hlat_fst_false_iff μ img t).mpr h, ?_⟩⟩
  intro i j k
  rw [writtenImage_vol_of_false h]
  rfl

/-- Witness for C1: the hypotheses hold at `img1` with `threshold = 1`. -/
theorem C1_witness :
    0 < 1 ∧
    (((has_label_above_threshold Unit img1 1).1 = true ↔
        1 ≤ nonZeroCount (cleanedArray img1.vol 1)) ∧
      (nonZeroCount (cleanedArray img1.vol 1) < 1 →
        (has_label_above_threshold Unit img1 1).1 = false ∧
        ∀ i j k, (writtenImage Unit img1 1).vol.val i j k = 0)) :=
  ⟨Nat.one_pos, C1_result_iff_count Unit img1 1 Nat.one_pos⟩

/-- Claim C4. Each call overwrites the file at `mask_path` exactly once (the
write trace is one image on both branches), and the written image's spatial
metadata equals the input image's metadata; only voxel values may differ. -/
theorem C4_single_write_meta (μ : Type) (img : Image μ) (t : Nat) :
    (has_label_above_threshold μ img t).2 = [writtenImage μ img t] ∧
    (writtenImage μ img t).meta = img.meta :=
  ⟨hlat_writes μ img t, writtenImage_meta μ img t⟩

/-- Claim C9. Called with `threshold = 0`, the margin is `0` and the `[-0:]`
slices cover every axis entirely, so the whole array is zeroed; the
remaining count `0` is not strictly less than `0`, so the function persists
an all-zero volume yet returns `true`. -/
theorem C9_zero_threshold (μ : Type) (img : Image μ) :
    (has_label_above_threshold μ img 0).1 = true ∧
    ∀ i j k, i < img.vol.n1 → j < img.vol.n2 → k < img.vol.n3 →
      (writtenImage μ img 0).vol.val i j k = 0 := by
  constructor
  · rw [hlat_fst_true_iff]
    exact Nat.zero_le _
  · intro i j k hi hj hk
    have hm : inMarginP (MARGIN_SCALING_FACTOR * 0) img.vol i j k := by
      right
      left
      refine ⟨?_, hi⟩
      simp [pyHi]
    rw [writtenImage_vol_of_true (Nat.not_lt_zero _)]
    unfold cleanedArray
    rw [removeSmall_val]
    by_cases hc : ((i, j, k) : Coord) ∈
        fgSet (borderFlush (MARGIN_SCALING_FACTOR * 0) img.vol) ∧
        0 ≤ compSize (borderFlush (MARGIN_SCALING_FACTOR * 0) img.vol) (i, j, k)
    · rw [if_pos hc]
      exact borderFlush_val_of_margin hm
    · rw [if_neg hc]

/-- Witness for C9 at `img1`, voxel `(0,0,0)`. -/
theorem C9_witness :
    (has_label_above_threshold Unit img1 0).1 = true ∧
    (writtenImage Unit img1 0).vol.val 0 0 0 = 0 :=
  ⟨(C9_zero_threshold Unit img1).1,
    (C9_zero_threshold Unit img1).2 0 0 0 (by decide) (by decide) (by decide)⟩

/-- Claim C10. The function only ever zeroes voxels: every in-bounds voxel of
the persisted volume equals the corresponding input voxel value or zero, on
both the `true` and the `false` branch. -/
theorem C10_only_zeroes (μ : Type) (img : Image μ) (t : Nat) (i j k : Nat)
    (hi : i < img.vol.n1) (hj : j < img.vol.n2) (hk : k < img.vol.n3) :
    (writtenImage μ img t).vol.val i j k = img.vol.val i j k ∨
    (writtenImage μ img t).vol.val i j k = 0 := by
  by_cases h : nonZeroCount (cleanedArray img.vol t) < t
  · right
    rw [writtenImage_vol_of_false h]
    rfl
  · rw [writtenImage_vol_of_true h]
    unfold cleanedArray
    rw [removeSmall_val]
    by_cases hc : ((i, j, k) : Coord) ∈
        fgSet (borderFlush (MARGIN_SCALING_FACTOR * t) img.vol) ∧
        t ≤ compSize (borderFlush (MARGIN_SCALING_FACTOR * t) img.vol) (i, j, k)
    · rw [if_pos hc]
      rcases Classical.em (inMarginP (MARGIN_SCALING_FACTOR * t) img.vol i j k)
        with hm | hm
      · right
        exact borderFlush_val_of_margin hm
      · left
        exact borderFlush_val_of_not_margin hm
    · right
      rw [if_neg hc]

/-- Witness for C10: the hypotheses hold at `img1`, `threshold = 1`,
voxel `(0,0,0)`. -/
theorem C10_witness :
    0 < 1 ∧
    ((writtenImage Unit img1 1).vol.val 0 0 0 = img1.vol.val 0 0 0 ∨
      (writtenImage Unit img1 1).vol.val 0 0 0 = 0) :=
  ⟨Nat.one_pos, C10_only_zeroes Unit img1 1 0 0 0 (by decide) (by decide) (by decide)⟩

/-- Claim C2. The border flush comes first, with margin
`MARGIN_SCALING_FACTOR * threshold` voxels on both sides of all three axes:
the persisted output vanishes on the entire margin region (with no
hypothesis on the components, so a volume with zero components undergoes the
flush the same way), and the call's outcome depends on the input array only
through its border-flushed form. -/
theorem C2_flush_first (μ : Type) (img imgB : Image μ) (t : Nat) (ht : 0 < t)
    (hsame : (borderFlush (MARGIN_SCALING_FACTOR * t) img.vol).sameAs
      (borderFlush (MARGIN_SCALING_FACTOR * t) imgB.vol)) :
    (∀ i j k, inMarginP (MARGIN_SCALING_FACTOR * t) img.vol i j k →
      (writtenImage μ img t).vol.val i j k = 0) ∧
    (has_label_above_threshold μ img t).1 =
      (has_label_above_threshold μ imgB t).1 := by
  refine ⟨writtenImage_margin_zero μ img t, ?_⟩
  have hcc : nonZeroCount (cleanedArray img.vol t) =
      nonZeroCount (cleanedArray imgB.vol t) :=
    nonZeroCount_congr (removeSmall_congr hsame t)
  by_cases h : nonZeroCount (cleanedArray img.vol t) < t
  · rw [(hlat_fst_false_iff μ img t).mpr h,
      (hlat_fst_false_iff μ imgB t).mpr (by omega)]
  · rw [(hlat_fst_true_iff μ img t).mpr (by omega),
      (hlat_fst_true_iff μ imgB t).mpr (by omega)]

/-- Witness for C2: the hypotheses hold at `img1` (twice), `threshold = 1`. -/
theorem C2_witness :
    0 < 1 ∧
    (borderFlush (MARGIN_SCALING_FACTOR * 1) img1.vol).sameAs
      (borderFlush (MARGIN_SCALING_FACTOR * 1) img1.vol) ∧
    ((∀ i j k, inMarginP (MARGIN_SCALING_FACTOR * 1) img1.vol i j k →
        (writtenImage Unit img1 1).vol.val i j k = 0) ∧
      (has_label_above_threshold Unit img1 1).1 =
        (has_label_above_threshold Unit img1 1).1) :=
  ⟨Nat.one_pos, sameAs_refl _,
    C2_flush_first Unit img1 img1 1 Nat.one_pos (sameAs_refl _)⟩

/-- Claim C7. When the margin reaches or exceeds an axis extent, the border
flush clamps to the full axis with no out-of-range error: the flushed array
is entirely zero, and the function returns `false` with an all-zero
persisted output. -/
theorem C7_margin_clamps (μ : Type) (img : Image μ) (t : Nat) (ht : 0 < t)
    (hax : img.vol.n1 ≤ MARGIN_SCALING_FACTOR * t ∨
      img.vol.n2 ≤ MARGIN_SCALING_FACTOR * t ∨
      img.vol.n3 ≤ MARGIN_SCALING_FACTOR * t) :
    (∀ i j k, i < img.vol.n1 → j < img.vol.n2 → k < img.vol.n3 →
      (borderFlush (MARGIN_SCALING_FACTOR * t) img.vol).val i j k = 0) ∧
    (has_label_above_threshold μ img t).1 = false ∧
    ∀ i j k, (writtenImage μ img t).vol.val i j k = 0 := by
  have hz : ∀ i j k, i < img.vol.n1 → j < img.vol.n2 → k < img.vol.n3 →
      (borderFlush (MARGIN_SCALING_FACTOR * t) img.vol).val i j k = 0 := by
    intro i j k hi hj hk
    apply borderFlush_val_of_margin
    unfold inMarginP pyLo
    rcases hax with h | h | h
    · left
      omega
    · right; right; left
      omega
    · right; right; right; right; left
      omega
  have hempty : fgSet (borderFlush (MARGIN_SCALING_FACTOR * t) img.vol) = ∅ := by
    ext p
    simp only [Finset.not_mem_empty, iff_false]
    intro hp
    obtain ⟨⟨h1, h2, h3⟩, hv⟩ := mem_fgSet.mp hp
    rw [borderFlush_n1] at h1
    rw [borderFlush_n2] at h2
    rw [borderFlush_n3] at h3
    rw [hz p.1 p.2.1 p.2.2 h1 h2 h3] at hv
    exact lt_irrefl 0 hv
  have hcount : nonZeroCount (cleanedArray img.vol t) = 0 := by
    unfold nonZeroCount cleanedArray
    rw [fgSet_removeSmall, hempty]
    simp
  refine ⟨hz, (hlat_fst_false_iff μ img t).mpr (by omega), ?_⟩
  intro i j k
  rw [writtenImage_vol_of_false (by omega)]
  rfl

/-- Witness for C7: the hypotheses hold at `img1`, `threshold = 1`
(axis extent 1 ≤ margin 3). -/
theorem C7_witness :
    0 < 1 ∧ img1.vol.n1 ≤ MARGIN_SCALING_FACTOR * 1 ∧
    ((∀ i j k, i < img1.vol.n1 → j < img1.vol.n2 → k < img1.vol.n3 →
        (borderFlush (MARGIN_SCALING_FACTOR * 1) img1.vol).val i j k = 0) ∧
      (has_label_above_threshold Unit img1 1).1 = false ∧
      ∀ i j k, (writtenImage Unit img1 1).vol.val i j k = 0) :=
  ⟨Nat.one_pos, by decide,
    C7_margin_clamps Unit img1 1 Nat.one_pos (Or.inl (by decide))⟩

/-- Claim C3. After the border flush, the connected components of the
binarized array are labeled and every voxel of a component with fewer than
`threshold` voxels is zeroed by the inclusion-mask multiplication, while
every voxel of a component with at least `threshold` voxels keeps its
value. -/
theorem C3_small_components_removed (μ : Type) (img : Image μ) (t : Nat)
    (ht : 0 < t) (i j k : Nat) (hi : i < img.vol.n1) (hj : j < img.vol.n2)
    (hk : k < img.vol.n3)
    (hfg : 0 < (borderFlush (MARGIN_SCALING_FACTOR * t) img.vol).val i j k) :
    (cleanedArray img.vol t).val i j k =
      if t ≤ compSize (borderFlush (MARGIN_SCALING_FACTOR * t) img.vol) (i, j, k)
      then (borderFlush (MARGIN_SCALING_FACTOR * t) img.vol).val i j k
      else 0 := by
  unfold cleanedArray
  rw [removeSmall_val]
  have hfgm : ((i, j, k) : Coord) ∈
      fgSet (borderFlush (MARGIN_SCALING_FACTOR * t) img.vol) := by
    rw [mem_fgSet, borderFlush_n1, borderFlush_n2, borderFlush_n3]
    exact ⟨⟨hi, hj, hk⟩, hfg⟩
  by_cases hs : t ≤ compSize (borderFlush (MARGIN_SCALING_FACTOR * t) img.vol) (i, j, k)
  · rw [if_pos ⟨hfgm, hs⟩, if_pos hs]
  · rw [if_neg fun hc => hs hc.2, if_neg hs]

/-- Witness for C3: the hypotheses hold at `img7`, `threshold = 1`,
voxel `(3,3,3)` (interior, outside the margin of 3). -/
theorem C3_witness :
    0 < 1 ∧
    0 < (borderFlush (MARGIN_SCALING_FACTOR * 1) img7.vol).val 3 3 3 ∧
    (cleanedArray img7.vol 1).val 3 3 3 =
      (if 1 ≤ compSize (borderFlush (MARGIN_SCALING_FACTOR * 1) img7.vol) (3, 3, 3)
      then (borderFlush (MARGIN_SCALING_FACTOR * 1) img7.vol).val 3 3 3
      else 0) :=
  ⟨Nat.one_pos, by decide,
    C3_small_components_removed Unit img7 1 Nat.one_pos 3 3 3
      (by decide) (by decide) (by decide) (by decide)⟩

theorem cleanedArray_n1 (v : Volume) (t : Nat) : (cleanedArray v t).n1 = v.n1 := by
  unfold cleanedArray
  rw [removeSmall_n1, borderFlush_n1]

theorem cleanedArray_n2 (v : Volume) (t : Nat) : (cleanedArray v t).n2 = v.n2 := by
  unfold cleanedArray
  rw [removeSmall_n2, borderFlush_n2]

theorem cleanedArray_n3 (v : Volume) (t : Nat) : (cleanedArray v t).n3 = v.n3 := by
  unfold cleanedArray
  rw [removeSmall_n3, borderFlush_n3]

/-- Claim C8. Every rule configured in the rule table binds a validation
function together with a parameter mapping and defines both
`action_on_true` and `action_on_false`, each drawn from the closed
enumeration `{stop, continue}`; in particular the rule configured for
`("fdg", "pet_ct")` defines both actions. -/
theorem C8_rules_actions_total (μ : Type) :
    (∀ tracer workflow r, RULES μ tracer workflow = some r →
      (r.action_on_true = RuleAction.stop ∨
        r.action_on_true = RuleAction.«continue») ∧
      (r.action_on_false = RuleAction.stop ∨
        r.action_on_false = RuleAction.«continue»)) ∧
    RULES μ "fdg" "pet_ct" =
      some ⟨(has_label_above_threshold μ, 10),
        RuleAction.stop, RuleAction.stop⟩ := by
  constructor
  · intro tracer workflow r _
    constructor
    · cases h : r.action_on_true
      · exact Or.inl rfl
      · exact Or.inr rfl
    · cases h : r.action_on_false
      · exact Or.inl rfl
      · exact Or.inr rfl
  · unfold RULES
    rw [if_pos ⟨rfl, rfl⟩]

/-- Witness for C8: the rule-lookup hypothesis holds at
`("fdg", "pet_ct")` and both actions are in the enumeration. -/
theorem C8_witness :
    RULES Unit "fdg" "pet_ct" =
      some ⟨(has_label_above_threshold Unit, 10),
        RuleAction.stop, RuleAction.stop⟩ ∧
    ((RuleAction.stop = RuleAction.stop ∨
        RuleAction.stop = RuleAction.«continue») ∧
      (RuleAction.stop = RuleAction.stop ∨
        RuleAction.stop = RuleAction.«continue»)) :=
  ⟨by rfl, (C8_rules_actions_total Unit).1 "fdg" "pet_ct"
    ⟨(has_label_above_threshold Unit, 10), RuleAction.stop, RuleAction.stop⟩
    (by rfl)⟩

/-- Claim C5, amended. For labeled volumes (nonnegative voxel values) such
that the border-flushed array still has at least one non-zero voxel and
every 6-connected component of the border-flushed array has at least
`threshold` voxels, `has_label_above_threshold` returns `true` and the
persisted output equals the border-flushed input at every in-bounds
voxel. -/
theorem C5_big_components_kept (μ : Type) (img : Image μ) (t : Nat)
    (ht : 0 < t)
    (hnn : ∀ i < img.vol.n1, ∀ j < img.vol.n2, ∀ k < img.vol.n3,
      0 ≤ img.vol.val i j k)
    (hne : (fgSet (borderFlush (MARGIN_SCALING_FACTOR * t) img.vol)).Nonempty)
    (hbig : ∀ p ∈ fgSet (borderFlush (MARGIN_SCALING_FACTOR * t) img.vol),
      t ≤ compSize (borderFlush (MARGIN_SCALING_FACTOR * t) img.vol) p) :
    (has_label_above_threshold μ img t).1 = true ∧
    (writtenImage μ img t).vol.sameAs
      (borderFlush (MARGIN_SCALING_FACTOR * t) img.vol) := by
  have hnnu : ∀ i j k,
      i < (borderFlush (MARGIN_SCALING_FACTOR * t) img.vol).n1 →
      j < (borderFlush (MARGIN_SCALING_FACTOR * t) img.vol).n2 →
      k < (borderFlush (MARGIN_SCALING_FACTOR * t) img.vol).n3 →
      0 ≤ (borderFlush (MARGIN_SCALING_FACTOR * t) img.vol).val i j k := by
    intro i j k hi hj hk
    rw [borderFlush_n1] at hi
    rw [borderFlush_n2] at hj
    rw [borderFlush_n3] at hk
    rcases Classical.em (inMarginP (MARGIN_SCALING_FACTOR * t) img.vol i j k)
      with hm | hm
    · rw [borderFlush_val_of_margin hm]
    · rw [borderFlush_val_of_not_margin hm]
      exact hnn i hi j hj k hk
  have hsame : (removeSmall t
      (borderFlush (MARGIN_SCALING_FACTOR * t) img.vol)).sameAs
      (borderFlush (MARGIN_SCALING_FACTOR * t) img.vol) :=
    removeSmall_sameAs_of_all_big hnnu hbig
  have hcnt : t ≤ nonZeroCount (cleanedArray img.vol t) := by
    have h1 : nonZeroCount (cleanedArray img.vol t) =
        nonZeroCount (borderFlush (MARGIN_SCALING_FACTOR * t) img.vol) :=
      nonZeroCount_congr hsame
    rw [h1]
    exact count_ge_of_nonempty_big hne hbig
  refine ⟨(hlat_fst_true_iff μ img t).mpr hcnt, ?_⟩
  rw [writtenImage_vol_of_true (by omega)]
  exact hsame

/-- Witness for C5: the amended hypotheses hold at `img7`,
`threshold = 1`. -/
theorem C5_witness :
    0 < 1 ∧
    (∀ i < img7.vol.n1, ∀ j < img7.vol.n2, ∀ k < img7.vol.n3,
      0 ≤ img7.vol.val i j k) ∧
    (fgSet (borderFlush (MARGIN_SCALING_FACTOR * 1) img7.vol)).Nonempty ∧
    (∀ p ∈ fgSet (borderFlush (MARGIN_SCALING_FACTOR * 1) img7.vol),
      1 ≤ compSize (borderFlush (MARGIN_SCALING_FACTOR * 1) img7.vol) p) ∧
    ((has_label_above_threshold Unit img7 1).1 = true ∧
      (writtenImage Unit img7 1).vol.sameAs
        (borderFlush (MARGIN_SCALING_FACTOR * 1) img7.vol)) :=
  ⟨Nat.one_pos, by decide, by decide, by decide,
    C5_big_components_kept Unit img7 1 Nat.one_pos
      (by decide) (by decide) (by decide)⟩

set_option maxHeartbeats 4000000 in
/-- Counterexample to claim C5 as stated: `cexVol` (threshold 2, margin 6)
satisfies the claim's hypotheses — its single 6-connected component
`{(5,6,6), (6,6,6)}` has 2 ≥ threshold voxels and does not lie only on the
boundary (voxel `(6,6,6)` is outside the margin region) — yet the call
returns `false` rather than `true`: the border flush cuts the component
down to `(6,6,6)` alone, and the size filter removes it. -/
theorem C5_counterexample :
    (∀ p ∈ fgSet cexVol, 2 ≤ compSize cexVol p) ∧
    (∀ p ∈ fgSet cexVol, ∃ q ∈ component cexVol p,
      ¬ inMarginP (MARGIN_SCALING_FACTOR * 2) cexVol q.1 q.2.1 q.2.2) ∧
    (has_label_above_threshold Unit cexImg 2).1 = false := by
  refine ⟨by decide, by decide, ?_⟩
  apply (hlat_fst_false_iff Unit cexImg 2).mpr
  have hfg : fgSet (borderFlush (MARGIN_SCALING_FACTOR * 2) cexVol) =
      {((6, 6, 6) : Coord)} := by decide
  have hcs : ¬ 2 ≤ compSize (borderFlush (MARGIN_SCALING_FACTOR * 2) cexVol)
      ((6, 6, 6) : Coord) := by decide
  have hcount : nonZeroCount (cleanedArray cexVol 2) = 0 := by
    unfold nonZeroCount cleanedArray
    rw [fgSet_removeSmall, hfg, Finset.filter_singleton, if_neg hcs]
    rfl
  have hvol : cexImg.vol = cexVol := rfl
  rw [hvol, hcount]
  omega

/-- Claim C6. Idempotence: if a first call with a positive threshold returned
`true`, a second call on the persisted volume with the same threshold
removes no further components, returns `true`, and persists an array
identical (same shape and in-bounds voxels) to the one the first call
persisted. -/
theorem C6_idempotent (μ : Type) (img : Image μ) (t : Nat) (ht : 0 < t)
    (hres : (has_label_above_threshold μ img t).1 = true) :
    (has_label_above_threshold μ (writtenImage μ img t) t).1 = true ∧
    (writtenImage μ (writtenImage μ img t) t).vol.sameAs
      (writtenImage μ img t).vol := by
  have hcnt : t ≤ nonZeroCount (cleanedArray img.vol t) :=
    (hlat_fst_true_iff μ img t).mp hres
  have hw : (writtenImage μ img t).vol = cleanedArray img.vol t :=
    writtenImage_vol_of_true (by omega)
  have hcm : ∀ i j k, i < (cleanedArray img.vol t).n1 →
      j < (cleanedArray img.vol t).n2 → k < (cleanedArray img.vol t).n3 →
      inMarginP (MARGIN_SCALING_FACTOR * t) (cleanedArray img.vol t) i j k →
      (cleanedArray img.vol t).val i j k = 0 := by
    intro i j k _ _ _ hm
    exact cleanedArray_margin_zero img.vol t i j k
      ((inMarginP_congr (cleanedArray_n1 img.vol t) (cleanedArray_n2 img.vol t)
        (cleanedArray_n3 img.vol t) (MARGIN_SCALING_FACTOR * t) i j k).mp hm)
  have hflush : (borderFlush (MARGIN_SCALING_FACTOR * t)
      (cleanedArray img.vol t)).sameAs (cleanedArray img.vol t) :=
    borderFlush_sameAs_of_margin_zero hcm
  have hchain : (cleanedArray (cleanedArray img.vol t) t).sameAs
      (cleanedArray img.vol t) :=
    sameAs_trans (removeSmall_congr hflush t)
      (removeSmall_sameAs_self t
        (borderFlush (MARGIN_SCALING_FACTOR * t) img.vol))
  have hcnt2 : nonZeroCount (cleanedArray (cleanedArray img.vol t) t) =
      nonZeroCount (cleanedArray img.vol t) := nonZeroCount_congr hchain
  constructor
  · apply (hlat_fst_true_iff μ (writtenImage μ img t) t).mpr
    rw [hw, hcnt2]
    exact hcnt
  · have hw2 : (writtenImage μ (writtenImage μ img t) t).vol =
        cleanedArray (writtenImage μ img t).vol t := by
      apply writtenImage_vol_of_true
      rw [hw, hcnt2]
      omega
    rw [hw2, hw]
    exact hchain

/-- Witness for C6: the hypotheses hold at `img7`, `threshold = 1` (the
first call keeps the single interior voxel and returns `true`). -/
theorem C6_witness :
    0 < 1 ∧ (has_label_above_threshold Unit img7 1).1 = true ∧
    ((has_label_above_threshold Unit (writtenImage Unit img7 1) 1).1 = true ∧
      (writtenImage Unit (writtenImage Unit img7 1) 1).vol.sameAs
        (writtenImage Unit img7 1).vol) := by
  have hfg : fgSet (borderFlush (MARGIN_SCALING_FACTOR * 1) img7.vol) =
      {((3, 3, 3) : Coord)} := by decide
  have hcs : 1 ≤ compSize (borderFlush (MARGIN_SCALING_FACTOR * 1) img7.vol)
      ((3, 3, 3) : Coord) := by decide
  have hres : (has_label_above_threshold Unit img7 1).1 = true := by
    apply (hlat_fst_true_iff Unit img7 1).mpr
    unfold nonZeroCount cleanedArray
    rw [fgSet_removeSmall, hfg, Finset.filter_singleton, if_pos hcs]
    decide
  exact ⟨Nat.one_pos, hres, C6_idempotent Unit img7 1 Nat.one_pos hres⟩
